import Mathlib

/-!
# A verification development for `eac2json`

`eac2json` converts Schwab's Employee Awards Center transaction-history
HTML page into a JSON array of key-value records.  This file gives a
shallow embedding of the program's core (the tag-directed DOM cursor, the
row/details extractors, the ledger builder, and `main`'s row-classification
loop) and proves properties of that embedding.

Modelling conventions:

* An HTML DOM node (`golang.org/x/net/html.Node`) is modelled by `HNode`:
  an element with tag, attributes and children, a text node, or any other
  node kind (`other`, covering comment/doctype/document nodes).
* Go nil pointers into a sibling chain are modelled by Lean lists: a field
  that holds "a node together with everything reachable from it via
  `NextSibling`" is a `List HNode`, and the empty list is the nil pointer.
* Go `map[string]string` values are modelled by canonical association
  lists (`upd` keeps at most one pair per key); Go map iteration order is
  unspecified, but every use in the program writes a distinct-key map into
  another map, so the resulting *contents* are order-independent.
* `strings.TrimSpace` is modelled by `trimStr`, which trims the ASCII
  whitespace common to Go and Lean.
* `log.Fatal`/`log.Fatalf` (exit status 1, nothing written to stdout) is
  modelled by `Outcome.fatal`; a Go runtime panic (nil dereference or
  index out of range, exit status 2, nothing written) by `Outcome.crash`.
  JSON encoding happens only in the `Outcome.ok` case, after the loop.
-/

namespace Eac2json

/-- An HTML DOM node: element (tag, attributes, children), text, or any
other node kind (comment, doctype, document). Mirrors the fields of
`html.Node` that the program reads: `Type`, `Data`, `Attr`, `FirstChild`,
`NextSibling` (sibling chains are carried as lists by the cursor). -/
inductive HNode : Type where
  | elem (tag : String) (attrs : List (String × String)) (children : List HNode)
  | text (data : String)
  | other (data : String) (children : List HNode)
deriving Repr

/-- The child list of a node (`FirstChild` plus its sibling chain);
text nodes have no children. -/
def childrenOf : HNode → List HNode
  | .elem _ _ cs => cs
  | .text _ => []
  | .other _ cs => cs

/-- `n.Type == html.ElementNode && n.Data == tag`. -/
def isElemTag (n : HNode) (tag : String) : Bool :=
  match n with
  | .elem t _ _ => t == tag
  | _ => false

/-- The whitespace predicate shared by Go's `strings.TrimSpace` and this
model (space, tab, carriage return, newline). -/
def isSpaceChar (c : Char) : Bool :=
  c == ' ' || c == '\t' || c == '\n' || c == '\r'

/-- Model of `strings.TrimSpace`: drop leading and trailing whitespace. -/
def trimStr (s : String) : String :=
  ⟨((s.toList.dropWhile isSpaceChar).reverse.dropWhile isSpaceChar).reverse⟩

/-- `Node.ChildText`'s scan: starting from a node, follow the
`FirstChild` chain until a text node is found. -/
def firstTextDesc : HNode → Option String
  | .text s => some s
  | .elem _ _ [] => none
  | .elem _ _ (c :: _) => firstTextDesc c
  | .other _ [] => none
  | .other _ (c :: _) => firstTextDesc c

/-- `Node.Text`'s scan: starting from a node, follow the `NextSibling`
chain until a text node is found. -/
def firstTextSib : List HNode → Option String
  | [] => none
  | .text s :: _ => some s
  | _ :: rest => firstTextSib rest

/-! ## Canonical association lists (Go `map[string]string` etc.) -/

/-- Map update `m[k] = v` on a canonical association list: removes any
existing pair for `k` and appends `(k, v)`. -/
def upd {α : Type} (m : List (String × α)) (k : String) (v : α) : List (String × α) :=
  m.filter (fun p => !(p.1 == k)) ++ [(k, v)]

/-- Map lookup `m[k]` (first — on canonical lists, unique — pair). -/
def look {α : Type} (m : List (String × α)) (k : String) : Option α :=
  (m.find? (fun p => p.1 == k)).map Prod.snd

/-- Lookup of the *last* pair for `k` in an arbitrary pair list; models the
result of writing the pairs into a Go map in list order. -/
def lastLook {α : Type} (m : List (String × α)) (k : String) : Option α :=
  (m.reverse.find? (fun p => p.1 == k)).map Prod.snd

/-- A ledger entry: a Go `map[string]string`, kept canonical by `upd`. -/
abbrev Entry := List (String × String)

/-! ## The cursor (`type Node struct` and its methods)

The Go struct holds the current node, a resume pointer `next`, a sticky
error, and a self-referential `stack` pointer used by `Push`/`Pop`.  A
pointer-to-copy chain of such structs flattens to a list of frames, each
frame holding the three data fields; `Push` pushes the current frame and
`Pop` restores the head frame (including, implicitly, the rest of the
chain, because the copy made by `Push` retained its own `stack` pointer).
-/

/-- One saved cursor state (the data fields of Go's `Node`). -/
structure Frame where
  cur : List HNode
  nxt : List HNode
  err : Option String
deriving Repr

/-- The cursor: current node plus its following siblings (`cur`, empty
list = nil `Node`), the resume pointer plus its following siblings
(`nxt`, empty = nil `next`), the sticky error, and the checkpoint
stack. -/
structure Cursor where
  cur : List HNode
  nxt : List HNode
  err : Option String
  stack : List Frame
deriving Repr

/-- The scan of `Sibling`'s loop: find the first element node with the
given tag in a sibling chain, returning it together with its following
siblings. -/
def findSib (tag : String) : List HNode → Option (HNode × List HNode)
  | [] => none
  | c :: rest => if isElemTag c tag then some (c, rest) else findSib tag rest

/-- `func (n *Node) Sibling(tag string)`: no-op when the sticky error is
set; otherwise scan from the resume pointer for the next element with the
tag, move there and advance the resume pointer past it, or set the sticky
error leaving the position unchanged. -/
def Cursor.Sibling (tag : String) (c : Cursor) : Cursor :=
  if c.err.isSome then c
  else
    match findSib tag c.nxt with
    | some (v, rest) => { c with cur := v :: rest, nxt := rest }
    | none => { c with err := some ("no sibling tag " ++ tag) }

/-- `func (n *Node) Child(tag string)`: no-op when the sticky error is
set; otherwise move to the first child, reset the resume pointer there,
and `Sibling tag`.  When the current node is nil the Go code would
dereference a nil pointer; that case is unreachable from a rooted cursor
(an error is always set first) and is modelled as a no-op. -/
def Cursor.Child (tag : String) (c : Cursor) : Cursor :=
  if c.err.isSome then c
  else
    match c.cur with
    | [] => c
    | n :: _ => Cursor.Sibling tag { c with cur := childrenOf n, nxt := childrenOf n }

/-- `func (n *Node) ChildText() string`: empty when the sticky error is
set; otherwise the first text node on the `FirstChild` chain, or empty. -/
def Cursor.ChildText (c : Cursor) : String :=
  if c.err.isSome then ""
  else
    match c.cur with
    | [] => ""
    | n :: _ => (firstTextDesc n).getD ""

/-- `func (n *Node) Text() string`: empty when the sticky error is set;
otherwise the first text node on the `NextSibling` chain from the current
node, or empty. -/
def Cursor.Text (c : Cursor) : String :=
  if c.err.isSome then ""
  else (firstTextSib c.cur).getD ""

/-- `func (n *Node) Push()`: save a full copy of the cursor (the copy's
`stack` pointer is the old chain, i.e. the tail of the new frame list). -/
def Cursor.Push (c : Cursor) : Cursor :=
  { c with stack := ⟨c.cur, c.nxt, c.err⟩ :: c.stack }

/-- `func (n *Node) Pop()`: restore the saved copy wholesale.  `Pop` with
an empty stack would dereference nil in Go; the program always balances
`Push`/`Pop`, and that case is modelled as a no-op. -/
def Cursor.Pop (c : Cursor) : Cursor :=
  match c.stack with
  | [] => c
  | f :: fs => ⟨f.cur, f.nxt, f.err, fs⟩

/-- A navigation/checkpoint operation on the cursor. -/
inductive Op : Type where
  | child (tag : String)
  | sibling (tag : String)
  | push
  | pop
deriving Repr

/-- Apply one operation. -/
def applyOp (c : Cursor) : Op → Cursor
  | .child tag => Cursor.Child tag c
  | .sibling tag => Cursor.Sibling tag c
  | .push => Cursor.Push c
  | .pop => Cursor.Pop c

/-- Run a sequence of operations left to right. -/
def runOps (c : Cursor) (ops : List Op) : Cursor :=
  ops.foldl applyOp c

/-- Pure navigation operations (no checkpointing). -/
def Op.isNav : Op → Bool
  | .child _ => true
  | .sibling _ => true
  | _ => false

/-- Operation sequences whose `push`/`pop` pairs nest properly (what the
extractors' `Push`/`defer Pop` discipline produces). -/
inductive Balanced : List Op → Prop where
  | nil : Balanced []
  | nav {op : Op} {ops : List Op} : op.isNav = true → Balanced ops → Balanced (op :: ops)
  | wrap {inner rest : List Op} : Balanced inner → Balanced rest →
      Balanced (.push :: inner ++ .pop :: rest)

/-! ## The ledger -/

/-- `type Ledger struct`: committed entries plus the in-progress entry. -/
structure Ledger where
  entries : List Entry
  e : Entry
deriving Repr

/-- `func (l *Ledger) Next()`: commit the in-progress entry if non-empty,
then start a fresh one. -/
def Ledger.Next (l : Ledger) : Ledger :=
  if l.e.isEmpty then ⟨l.entries, []⟩ else ⟨l.entries ++ [l.e], []⟩

/-- `func (l *Ledger) Write(k, v string)`. -/
def Ledger.Write (l : Ledger) (k v : String) : Ledger :=
  { l with e := upd l.e k v }

/-- Write every pair of a (canonical) map into the in-progress entry:
`for k, v := range m { l.Write(k, v) }`. -/
def writeEach (l : Ledger) (m : Entry) : Ledger :=
  m.foldl (fun l p => l.Write p.1 p.2) l

/-! ## The history locator (`findHistory`) -/

/-- The attribute scan of `findHistory`: is some attribute
`name="History"`? -/
def attrHistory : List (String × String) → Bool
  | [] => false
  | (k, v) :: rest => (k == "name" && v == "History") || attrHistory rest

/-- Depth-first pre-order search (worklist form) for an `<a>` element
carrying `name="History"`; visiting a node checks it, then its children,
then its following siblings — exactly `findHistory`'s recursion order. -/
def findHistoryL : List HNode → Option HNode
  | [] => none
  | .elem t attrs cs :: rest =>
    if t == "a" && attrHistory attrs then some (.elem t attrs cs)
    else
      match findHistoryL cs with
      | some r => some r
      | none => findHistoryL rest
  | .text _ :: rest => findHistoryL rest
  | .other _ cs :: rest =>
    match findHistoryL cs with
    | some r => some r
    | none => findHistoryL rest

/-- `func findHistory(n *html.Node) *html.Node`. -/
def findHistory (n : HNode) : Option HNode :=
  findHistoryL [n]

/-! ## The row extractor (`func row`)

`row` walks the `td` element children of the current `tr`; in each cell it
descends into the first `label` child and takes its trimmed `ChildText`.
A cell without a `label` child fails the whole extraction (the sticky
error is returned); running out of `td` siblings ends the loop
successfully with the values collected so far.
-/

/-- One cell of `row`'s loop body: `Push; Child("label"); ChildText; Pop`.
`none` models the `label`-not-found sticky error. -/
def cellVal (td : HNode) : Option String :=
  match findSib "label" (childrenOf td) with
  | none => none
  | some (lab, _) => some (trimStr ((firstTextDesc lab).getD ""))

/-- `row`'s loop over the cursor's sibling chain (the children of the
`tr`): non-`td` nodes are skipped by the `Child("td")`/`Sibling("td")`
scans. -/
def rowValsAux : List HNode → Except String (List String)
  | [] => .ok []
  | c :: rest =>
    if isElemTag c "td" then
      match cellVal c with
      | none => .error "no sibling tag label"
      | some v =>
        match rowValsAux rest with
        | .error m => .error m
        | .ok vs => .ok (v :: vs)
    else rowValsAux rest

/-- `func row(n *Node) ([]string, error)`, as a function of the `tr` node
the cursor points at (the cursor is checkpointed and restored around the
call, and the loop never leaves the `tr`'s subtree). -/
def rowVals (tr : HNode) : Except String (List String) :=
  rowValsAux (childrenOf tr)

/-! ## The details extractor, variant A (`func more`) -/

/-- One header cell: `Push; Child("b"); TrimSpace(ChildText()); Pop`.
A cell without a `b` child contributes `""` (the sticky error makes
`ChildText` return empty, and `Pop` clears it). -/
def headerCell (td : HNode) : String :=
  match findSib "b" (childrenOf td) with
  | none => ""
  | some (b, _) => trimStr ((firstTextDesc b).getD "")

/-- The header loop: one entry per `td` element child, in order. -/
def headerCells : List HNode → List String
  | [] => []
  | c :: rest =>
    if isElemTag c "td" then headerCell c :: headerCells rest
    else headerCells rest

/-- `for len(headers) > 0 && headers[len(headers)-1] == "" { ... }`:
strip trailing empty header labels. -/
def stripTrailingEmpty (hs : List String) : List String :=
  (hs.reverse.dropWhile (fun s => s == "")).reverse

/-- The trimmed `ChildText` of each `td` element child of a sub-row. -/
def tdTexts : List HNode → List String
  | [] => []
  | c :: rest =>
    if isElemTag c "td" then
      trimStr ((firstTextDesc c).getD "") :: tdTexts rest
    else tdTexts rest

/-- The mapping built from one accepted sub-row:
`m[headers[i]] = cells[i]` for `i < len(headers)` (the loop reads exactly
the first `len(headers)` cells; extra cells are ignored). -/
def mkRow (hs cells : List String) : Entry :=
  (hs.zip cells).foldl (fun e p => upd e p.1 p.2) []

/-- `more`'s sub-row loop: each `tr` element sibling is read positionally
against the header list and accepted iff it supplies a cell for every
header column (`i == len(headers)` after the inner loop). -/
def moreRows (hs : List String) : List HNode → List Entry
  | [] => []
  | c :: rest =>
    if isElemTag c "tr" then
      if hs.length ≤ (tdTexts (childrenOf c)).length then
        mkRow hs (tdTexts (childrenOf c)) :: moreRows hs rest
      else moreRows hs rest
    else moreRows hs rest

/-- `func more(n *Node) ([]map[string]string, error)`: descend
`td/div/div/table`, `Sibling("table")` (the *second* table), `tbody`,
then `Child("tr")` for the header row; error out if that chain failed;
read bolded headers, strip trailing empties, and collect the accepted
sub-row mappings. -/
def moreRes (tr : HNode) : Except String (List Entry) :=
  let c0 : Cursor := ⟨[tr], [tr], none, []⟩
  let c := Cursor.Child "tr" <| Cursor.Child "tbody" <| Cursor.Sibling "table" <|
    Cursor.Child "table" <| Cursor.Child "div" <| Cursor.Child "div" <|
    Cursor.Child "td" c0
  match c.err with
  | some m => .error m
  | none =>
    match c.cur with
    | [] => .error "unreachable"
    | h :: rest =>
      let hs := stripTrailingEmpty (headerCells (childrenOf h))
      .ok (moreRows hs rest)

/-! ## The details extractor, variant B (`func more1`) -/

/-- One cell of `more1`'s inner loop: the key is the cell's trimmed
`ChildText`; the value is found by `Child("b")` then `Text()` (the first
text node from the `b` onward through its following siblings; empty when
there is no `b`).  Empty keys are skipped. -/
def more1Cell (e : Entry) (td : HNode) : Entry :=
  let key := trimStr ((firstTextDesc td).getD "")
  let value :=
    match findSib "b" (childrenOf td) with
    | none => ""
    | some (b, after) => trimStr ((firstTextSib (b :: after)).getD "")
  if key == "" then e else upd e key value

/-- `more1`'s inner loop over the `td` element children of a row. -/
def more1Row (e : Entry) : List HNode → Entry
  | [] => e
  | c :: rest =>
    if isElemTag c "td" then more1Row (more1Cell e c) rest
    else more1Row e rest

/-- `more1`'s outer loop over the `tr` element children of the `tbody`. -/
def more1Rows (e : Entry) : List HNode → Entry
  | [] => e
  | c :: rest =>
    if isElemTag c "tr" then more1Rows (more1Row e (childrenOf c)) rest
    else more1Rows e rest

/-- `func more1(n *Node) (map[string]string, error)`: same structural
descent as `more` (checked right after `tbody`), then flatten all rows'
key/value cells into one mapping. -/
def more1Res (tr : HNode) : Except String Entry :=
  let c0 : Cursor := ⟨[tr], [tr], none, []⟩
  let c := Cursor.Child "tbody" <| Cursor.Sibling "table" <| Cursor.Child "table" <|
    Cursor.Child "div" <| Cursor.Child "div" <| Cursor.Child "td" c0
  match c.err with
  | some m => .error m
  | none =>
    match c.cur with
    | [] => .error "unreachable"
    | tb :: _ => .ok (more1Rows [] (childrenOf tb))

/-! ## The header mapping and main's classifier loop -/

/-- The labels of a header row paired with their indices, in order. -/
def idxPairsFrom : Nat → List String → List (String × Nat)
  | _, [] => []
  | i, h :: t => (h, i) :: idxPairsFrom (i + 1) t

/-- `header := make(map[string]int); for i := range headerVals { header[headerVals[i]] = i }`:
for duplicate labels the last index wins. -/
def headerPairs (hs : List String) : List (String × Nat) :=
  (idxPairsFrom 0 hs).foldl (fun m p => upd m p.1 p.2) []

/-- `header[k]` — a Go map read returns the zero value `0` for a missing
key, so a label that never occurs maps to column `0`. -/
def hLookup (hs : List String) (k : String) : Nat :=
  (look (headerPairs hs) k).getD 0

/-- `values[header["Action"]]` as read by the switch; `none` models the
index-out-of-range panic on a row with too few cells. -/
def actionOf (hs values : List String) : Option String :=
  values.get? (hLookup hs "Action")

/-- `for k, i := range header { l.Write(k, values[i]) }`, iterating the
canonical pairs of the header map; `none` models the index-out-of-range
panic when a value index exceeds the row's length. -/
def writeAllAux (values : List String) : List (String × Nat) → Ledger → Option Ledger
  | [], l => some l
  | p :: ps, l =>
    match values.get? p.2 with
    | none => none
    | some v => writeAllAux values ps (l.Write p.1 v)

/-- Write every primary-row field into the in-progress entry. -/
def writeAll (hs values : List String) (l : Ledger) : Option Ledger :=
  writeAllAux values (headerPairs hs) l

/-- `var coreKeys = []string{...}`: the fixed subset of primary-row fields
copied into each fanned-out entry. -/
def coreKeys : List String := ["Date", "Description", "Action", "Symbol"]

/-- `for _, k := range coreKeys { l.Write(k, values[header[k]]) }`. -/
def writeCoreAux (hs values : List String) : List String → Ledger → Option Ledger
  | [], l => some l
  | k :: ks, l =>
    match values.get? (hLookup hs k) with
    | none => none
    | some v => writeCoreAux hs values ks (l.Write k v)

/-- The `Exer and Hold`/`Sale` fan-out: for each detail mapping, commit
the previous entry, write the core fields, then merge the mapping. -/
def fanOut (hs values : List String) : List Entry → Ledger → Option Ledger
  | [], l => some l
  | e :: es, l =>
    match writeCoreAux hs values coreKeys l.Next with
    | none => none
    | some l1 => fanOut hs values es (writeEach l1 e)

/-- The entry constructed for one detail mapping of a fan-out row: the
four core fields, overwritten by the mapping's pairs.  (Out-of-range core
reads are modelled with a `""` default; `fanOut` succeeding means they
were all in range.) -/
def fanEntry (hs values : List String) (e : Entry) : Entry :=
  e.foldl (fun acc p => upd acc p.1 p.2)
    (coreKeys.foldl (fun acc k => upd acc k ((values.get? (hLookup hs k)).getD "")) [])

/-- After classifying a primary row, the loop may owe a visit to the next
`tr` (the "more details" row); `Pending` records which branch is waiting
for it. -/
inductive Pending : Type where
  | dep
  | lapse
  | fan (values : List String)
  | journal
deriving Repr

/-- The result of a run: `ok` carries the JSON-encoded entry list (written
only after the loop finishes); `fatal` is `log.Fatal`/`log.Fatalf` (exit
status 1, no output); `crash` is a Go runtime panic (exit status 2, no
output). -/
inductive Outcome : Type where
  | ok (entries : List Entry)
  | fatal (msg : String)
  | crash (msg : String)
deriving Repr

/-- `main`'s row loop, `for n.Sibling("tr"); n.Ok(); n.Sibling("tr")`,
walking the remaining sibling chain of the outer `tbody`'s rows.  Each
list element is one sibling; non-`tr` nodes are skipped by the scans.
With `Pending` set, the next `tr` is the details row of the previous
primary row.  Running out of siblings while a non-`Journal` details row
is owed makes `more`/`more1` report the sticky "no sibling tag tr" error,
which is fatal; a `Journal` branch leaves the error unchecked, so the
loop simply exits.  Note the terminal case returns `l.entries` without a
final `Ledger.Next`: the in-progress entry is dropped. -/
def loopRows (hs : List String) : List HNode → Option Pending → Ledger → Outcome
  | [], none, l => .ok l.entries
  | [], some .journal, l => .ok l.entries
  | [], some _, _ => .fatal "no sibling tag tr"
  | c :: rest, none, l =>
    if isElemTag c "tr" then
      match rowVals c with
      | .error m => .fatal ("bad row: " ++ m)
      | .ok values =>
        match actionOf hs values with
        | none => .crash "index out of range"
        | some a =>
          if a == "Lapse" then
            match writeAll hs values l.Next with
            | none => .crash "index out of range"
            | some l1 => loopRows hs rest (some .lapse) l1
          else if a == "Deposit" || a == "Forced Quick Sell" then
            match writeAll hs values l.Next with
            | none => .crash "index out of range"
            | some l1 => loopRows hs rest (some .dep) l1
          else if a == "Exer and Hold" || a == "Sale" then
            loopRows hs rest (some (.fan values)) l
          else if a == "Journal" then
            loopRows hs rest (some .journal) l
          else if a == "Forced Disbursement" then
            loopRows hs rest none l
          else .fatal ("unknown row type \"" ++ a ++ "\"")
    else loopRows hs rest none l
  | c :: rest, some p, l =>
    if isElemTag c "tr" then
      match p with
      | .journal => loopRows hs rest none l
      | .lapse =>
        match more1Res c with
        | .error m => .fatal m
        | .ok m => loopRows hs rest none (writeEach l m)
      | .dep =>
        match moreRes c with
        | .error m => .fatal m
        | .ok [e] => loopRows hs rest none (writeEach l e)
        | .ok es => .fatal ("Expected one row; got " ++ toString es.length)
      | .fan values =>
        match moreRes c with
        | .error m => .fatal m
        | .ok [] => .fatal "empty \"more details\" for Exer and Hold"
        | .ok es =>
          match fanOut hs values es l with
          | none => .crash "index out of range"
          | some l1 => loopRows hs rest none l1
    else loopRows hs rest (some p) l

/-- Everything `main` does after the history locator succeeds: the fixed
descent chain to the transaction table's `tbody`, the shape check on the
current node (performed on whatever node the chain left current — a nil
current node is a runtime panic, because the `Ok` check only comes
later), `Child("tr")` to the header row, the header extraction, and the
classifier loop.  The cursor starts as `&Node{root, root, nil, nil}`. -/
def mainFromRoot (root : HNode) : Outcome :=
  let c0 : Cursor := ⟨[root], [root], none, []⟩
  let c := Cursor.Child "tbody" <| Cursor.Child "table" <| Cursor.Child "td" <|
    Cursor.Sibling "tr" <| Cursor.Child "tr" <| Cursor.Child "tbody" <|
    Cursor.Child "table" c0
  match c.cur with
  | [] => .crash "invalid memory address or nil pointer dereference"
  | nd :: _ =>
    if !(isElemTag nd "tbody") then .fatal "bad table node"
    else
      let c1 := Cursor.Child "tr" c
      match c1.err with
      | some m => .fatal m
      | none =>
        match c1.cur with
        | [] => .fatal "unreachable"
        | htr :: _ =>
          match rowVals htr with
          | .error m => .fatal ("no header: " ++ m)
          | .ok headerVals => loopRows headerVals c1.nxt none ⟨[], []⟩

/-- `func main` after parsing: locate the history anchor (fatal if
absent), then continue from it. -/
def mainRun (doc : HNode) : Outcome :=
  match findHistory doc with
  | none => .fatal "no history"
  | some root => mainFromRoot root

/-! ## Concrete input documents

Small documents with the exact layout the program expects, used to
evaluate the model at specific inputs.
-/

/-- A primary-table cell: `<td><label>s</label></td>`. -/
def labelCell (s : String) : HNode :=
  .elem "td" [] [.elem "label" [] [.text s]]

/-- A primary-table row of labelled cells. -/
def dataTr (ss : List String) : HNode :=
  .elem "tr" [] (ss.map labelCell)

/-- A details-table header cell: `<td><b>s</b></td>`. -/
def bCell (s : String) : HNode :=
  .elem "td" [] [.elem "b" [] [.text s]]

/-- A details-table data cell: `<td>s</td>`. -/
def tCell (s : String) : HNode :=
  .elem "td" [] [.text s]

/-- A variant-A "more details" row: the `td/div/div` chain, a first
(skipped) table, then the details table whose `tbody` holds a bolded
header row and the given data rows. -/
def detailsNode (hdr : List String) (rows : List (List String)) : HNode :=
  .elem "tr" []
    [.elem "td" []
      [.elem "div" []
        [.elem "div" []
          [.elem "table" [] [],
           .elem "table" []
             [.elem "tbody" []
               (.elem "tr" [] (hdr.map bCell) :: rows.map (fun r => .elem "tr" [] (r.map tCell)))]]]]]

/-- The standard scaffolding around an inner `tbody`: the history anchor
containing the outer table whose second row's cell holds the transaction
table. -/
def anchorFor (innerTbody : HNode) : HNode :=
  .elem "a" [("name", "History")]
    [.elem "table" []
      [.elem "tbody" []
        [.elem "tr" [] [],
         .elem "tr" []
           [.elem "td" []
             [.elem "table" [] [innerTbody]]]]]]

/-- The header row used by the sample documents. -/
def sampleHeaderTr : HNode :=
  dataTr ["Date", "Description", "Action", "Symbol"]

/-- A `Deposit` row. -/
def depositTr : HNode :=
  dataTr ["01/02/2020", "RSU", "Deposit", "ABC"]

/-- The `Deposit` row's details: one sub-row under headers
`Shares`/`Price`. -/
def depositDetails : HNode :=
  detailsNode ["Shares", "Price"] [["10", "1.00"]]

/-- A document whose only transaction is one `Deposit` row with a valid
one-mapping details row: the deposit's entry is still in progress when
the input ends. -/
def docOneDeposit : HNode :=
  .elem "html" []
    [.elem "body" []
      [anchorFor (.elem "tbody" [] [sampleHeaderTr, depositTr, depositDetails])]]

/-- A document whose history anchor has no children at all
(`<a name="History"></a>`): the first `Child("table")` leaves the current
node nil. -/
def docBareAnchor : HNode :=
  .elem "html" [] [.elem "body" [] [.elem "a" [("name", "History")] []]]

/-- Like `docOneDeposit` but with the `Deposit` row (and its details)
repeated: the second row's `Ledger.Next` commits the first entry, and the
second entry is still in progress when the input ends. -/
def docTwoDeposits : HNode :=
  .elem "html" []
    [.elem "body" []
      [anchorFor (.elem "tbody" []
        [sampleHeaderTr, depositTr, depositDetails, depositTr, depositDetails])]]

/-! ## Association-list lemmas -/

/-- The key list of an association list. -/
def keysOf {α : Type} (m : List (String × α)) : List String := m.map Prod.fst

theorem look_cons {α : Type} (a : String) (b : α) (t : List (String × α)) (k : String) :
    look ((a, b) :: t) k = if a = k then some b else look t k := by
  by_cases h : a = k <;> simp [look, List.find?_cons, h]

theorem look_upd {α : Type} (m : List (String × α)) (k : String) (v : α) (k' : String) :
    look (upd m k v) k' = if k' = k then some v else look m k' := by
  induction m with
  | nil =>
    by_cases h : k' = k
    · subst h
      simp [upd, look, List.find?_cons]
    · simp [upd, look, List.find?_cons, h, Ne.symm h]
  | cons p t ih =>
    obtain ⟨a, b⟩ := p
    by_cases hak : a = k
    · subst hak
      rw [show upd ((a, b) :: t) a v = upd t a v by simp [upd, List.filter_cons]]
      rw [ih, look_cons]
      by_cases h : k' = a
      · simp [h]
      · simp [h, Ne.symm h]
    · rw [show upd ((a, b) :: t) k v = (a, b) :: upd t k v by simp [upd, List.filter_cons, hak]]
      rw [look_cons, look_cons, ih]
      by_cases hk' : k' = k
      · subst hk'
        simp [hak]
      · simp [hk']

theorem lastLook_cons {α : Type} (p : String × α) (ps : List (String × α)) (k : String) :
    lastLook (p :: ps) k = (lastLook ps k).or (if p.1 = k then some p.2 else none) := by
  obtain ⟨a, b⟩ := p
  by_cases h : a = k <;>
    cases hf : (ps.reverse.find? (fun q => q.1 == k)) <;>
      simp [lastLook, List.find?_append, hf, List.find?_cons, h, Option.or]

theorem look_foldl_upd {α : Type} (ps : List (String × α)) (m0 : List (String × α)) (k : String) :
    look (ps.foldl (fun m p => upd m p.1 p.2) m0) k = (lastLook ps k).or (look m0 k) := by
  induction ps generalizing m0 with
  | nil => simp [lastLook, Option.or]
  | cons p t ih =>
    rw [List.foldl_cons, ih, look_upd, lastLook_cons]
    cases ht : lastLook t k <;> by_cases h : p.1 = k
    · simp [Option.or, h]
    · simp [Option.or, h, Ne.symm h]
    · simp [Option.or, h]
    · simp [Option.or, h, Ne.symm h]

theorem look_isSome_iff {α : Type} (m : List (String × α)) (k : String) :
    (look m k).isSome ↔ k ∈ keysOf m := by
  simp only [look, Option.isSome_map', List.find?_isSome, keysOf, List.mem_map]
  constructor
  · rintro ⟨p, hp, he⟩
    exact ⟨p, hp, by simpa using he⟩
  · rintro ⟨p, hp, he⟩
    exact ⟨p, hp, by simpa using he⟩

theorem lastLook_isSome_iff {α : Type} (m : List (String × α)) (k : String) :
    (lastLook m k).isSome ↔ k ∈ keysOf m := by
  simp only [lastLook, Option.isSome_map', List.find?_isSome, keysOf, List.mem_map,
    List.mem_reverse]
  constructor
  · rintro ⟨p, hp, he⟩
    exact ⟨p, hp, by simpa using he⟩
  · rintro ⟨p, hp, he⟩
    exact ⟨p, hp, by simpa using he⟩

theorem keysOf_upd {α : Type} (m : List (String × α)) (k : String) (v : α) :
    keysOf (upd m k v) = keysOf (m.filter (fun p => !(p.1 == k))) ++ [k] := by
  simp [upd, keysOf]

theorem nodup_keys_upd {α : Type} (m : List (String × α)) (k : String) (v : α)
    (h : (keysOf m).Nodup) : (keysOf (upd m k v)).Nodup := by
  rw [keysOf_upd]
  have hsub : (keysOf (m.filter (fun p => !(p.1 == k)))).Sublist (keysOf m) := by
    exact List.Sublist.map Prod.fst (List.filter_sublist m)
  refine List.Nodup.append (hsub.nodup h) (List.nodup_singleton k) ?_
  intro a ha hb
  rcases List.mem_singleton.mp hb with rfl
  rcases List.mem_map.mp ha with ⟨p, hp, rfl⟩
  rcases List.mem_filter.mp hp with ⟨_, hne⟩
  simp at hne

theorem nodup_keys_foldl_upd {α : Type} (ps : List (String × α)) (m0 : List (String × α))
    (h : (keysOf m0).Nodup) :
    (keysOf (ps.foldl (fun m p => upd m p.1 p.2) m0)).Nodup := by
  induction ps generalizing m0 with
  | nil => exact h
  | cons p t ih => exact ih _ (nodup_keys_upd _ _ _ h)

theorem lastLook_eq_look_of_nodup {α : Type} (m : List (String × α)) (k : String)
    (h : (keysOf m).Nodup) : lastLook m k = look m k := by
  induction m with
  | nil => rfl
  | cons p t ih =>
    obtain ⟨a, b⟩ := p
    have ht : (keysOf t).Nodup := (List.nodup_cons.mp h).2
    rw [lastLook_cons, look_cons, ih ht]
    by_cases hak : a = k
    · subst hak
      have : a ∉ keysOf t := (List.nodup_cons.mp h).1
      have hnone : look t a = none := by
        cases hl : look t a with
        | none => rfl
        | some v =>
          exact absurd ((look_isSome_iff t a).mp (by simp [hl])) this
      simp [hnone, Option.or]
    · simp [hak, Option.or]
      cases look t k <;> simp

/-! ## Cursor lemmas -/

theorem applyOp_nav_of_err (c : Cursor) (op : Op) (msg : String)
    (herr : c.err = some msg) (hop : op.isNav = true) : applyOp c op = c := by
  cases op with
  | child tag => simp [applyOp, Cursor.Child, herr]
  | sibling tag => simp [applyOp, Cursor.Sibling, herr]
  | push => simp [Op.isNav] at hop
  | pop => simp [Op.isNav] at hop

theorem runOps_nav_of_err (c : Cursor) (ops : List Op) (msg : String)
    (herr : c.err = some msg) (hnav : ∀ op ∈ ops, op.isNav = true) : runOps c ops = c := by
  induction ops with
  | nil => rfl
  | cons op t ih =>
    have hop : applyOp c op = c := applyOp_nav_of_err c op msg herr (hnav op (by simp))
    calc runOps c (op :: t) = runOps (applyOp c op) t := rfl
    _ = runOps c t := by rw [hop]
    _ = c := ih (fun o ho => hnav o (List.mem_cons_of_mem _ ho))

theorem runOps_append (c : Cursor) (xs ys : List Op) :
    runOps c (xs ++ ys) = runOps (runOps c xs) ys :=
  List.foldl_append _ _ _ _

theorem applyOp_nav_stack (c : Cursor) (op : Op) (hop : op.isNav = true) :
    (applyOp c op).stack = c.stack := by
  cases op with
  | child tag =>
    simp only [applyOp, Cursor.Child]
    split
    · rfl
    · split
      · rfl
      · simp only [Cursor.Sibling]
        split
        · rfl
        · split <;> rfl
  | sibling tag =>
    simp only [applyOp, Cursor.Sibling]
    split
    · rfl
    · split <;> rfl
  | push => simp [Op.isNav] at hop
  | pop => simp [Op.isNav] at hop

theorem runOps_balanced_stack (ops : List Op) (h : Balanced ops) :
    ∀ c : Cursor, (runOps c ops).stack = c.stack := by
  induction h with
  | nil => intro c; rfl
  | @nav op t hop _ ih =>
    intro c
    calc (runOps c (op :: t)).stack = (runOps (applyOp c op) t).stack := rfl
    _ = (applyOp c op).stack := ih _
    _ = c.stack := applyOp_nav_stack _ _ hop
  | @wrap inner rest _ _ ihinner ihrest =>
    intro c
    have h1 : runOps c (.push :: inner ++ .pop :: rest) =
        runOps (Cursor.Pop (runOps (Cursor.Push c) inner)) rest := by
      calc runOps c (.push :: inner ++ .pop :: rest)
          = runOps (Cursor.Push c) (inner ++ .pop :: rest) := rfl
      _ = runOps (runOps (Cursor.Push c) inner) (.pop :: rest) := runOps_append _ _ _
      _ = runOps (Cursor.Pop (runOps (Cursor.Push c) inner)) rest := rfl
    have h2 : (runOps (Cursor.Push c) inner).stack = ⟨c.cur, c.nxt, c.err⟩ :: c.stack := by
      rw [ihinner (Cursor.Push c)]
      rfl
    rw [h1, ihrest _]
    simp only [Cursor.Pop, h2]

/-- C8: the checkpoint stack is a proper LIFO stack of arbitrary depth:
`Push` saves the whole cursor value (the saved copy keeps its own saved
chain), so around any balanced sequence of navigation and inner
`Push`/`Pop` pairs, a `Pop` restores exactly the cursor state — current
node, resume pointer, error flag (and saved chain) — that existed at its
matching `Push`. -/
theorem c8_checkpoint_lifo (c : Cursor) (ops : List Op) (h : Balanced ops) :
    runOps c (.push :: ops ++ [.pop]) = c := by
  have h1 : runOps c (.push :: ops ++ [.pop]) =
      runOps (runOps (Cursor.Push c) ops) [.pop] := by
    show runOps (applyOp c .push) (ops ++ [.pop]) = _
    rw [show applyOp c .push = Cursor.Push c from rfl, runOps_append]
  have h2 : (runOps (Cursor.Push c) ops).stack = ⟨c.cur, c.nxt, c.err⟩ :: c.stack := by
    rw [runOps_balanced_stack ops h]
    rfl
  rw [h1]
  show Cursor.Pop (runOps (Cursor.Push c) ops) = c
  simp only [Cursor.Pop, h2]

/-- Witness for C8 at a depth-three nesting (the depth the extractors
use: `more` checkpoints the cursor, the header loop checkpoints it again,
and each header cell a third time). -/
theorem c8_checkpoint_lifo_witness :
    runOps ⟨[.text "w"], [], none, []⟩
      (.push :: ([.sibling "tr", .push, .child "td", .push, .child "b", .pop, .pop] ++ [.pop])) =
      ⟨[.text "w"], [], none, []⟩ := by
  have b2 : Balanced [Op.child "b"] := Balanced.nav rfl Balanced.nil
  have b3 : Balanced [Op.push, Op.child "b", Op.pop] :=
    @Balanced.wrap [Op.child "b"] [] b2 Balanced.nil
  have b4 : Balanced [Op.child "td", Op.push, Op.child "b", Op.pop] := Balanced.nav rfl b3
  have b5 : Balanced [Op.push, Op.child "td", Op.push, Op.child "b", Op.pop, Op.pop] :=
    @Balanced.wrap [Op.child "td", Op.push, Op.child "b", Op.pop] [] b4 Balanced.nil
  have b6 : Balanced [Op.sibling "tr", Op.push, Op.child "td", Op.push, Op.child "b",
      Op.pop, Op.pop] := Balanced.nav rfl b5
  exact c8_checkpoint_lifo _ _ b6

/-- C2: the cursor's error is sticky with first-error-wins semantics:
once `err` is set, every sequence of `Child`/`Sibling` calls leaves the
whole cursor (current node, resume pointer, error) unchanged, and
`ChildText`/`Text` return the empty string. -/
theorem c2_sticky_error (c : Cursor) (msg : String) (ops : List Op)
    (herr : c.err = some msg) (hnav : ∀ op ∈ ops, op.isNav = true) :
    runOps c ops = c ∧ Cursor.ChildText c = "" ∧ Cursor.Text c = "" :=
  ⟨runOps_nav_of_err c ops msg herr hnav,
   by simp [Cursor.ChildText, herr],
   by simp [Cursor.Text, herr]⟩

/-- Witness for C2: a cursor in error state is untouched by a concrete
descend/advance sequence and yields empty text. -/
theorem c2_sticky_error_witness :
    runOps ⟨[.elem "td" [] [.text "v"]], [.text "x"], some "no sibling tag tr", []⟩
        [.child "td", .sibling "td", .child "label"] =
      ⟨[.elem "td" [] [.text "v"]], [.text "x"], some "no sibling tag tr", []⟩ ∧
    Cursor.ChildText ⟨[.elem "td" [] [.text "v"]], [.text "x"], some "no sibling tag tr", []⟩ = "" ∧
    Cursor.Text ⟨[.elem "td" [] [.text "v"]], [.text "x"], some "no sibling tag tr", []⟩ = "" :=
  c2_sticky_error _ "no sibling tag tr" _ rfl (by decide)

theorem findSib_some (tag : String) (L : List HNode) (v : HNode) (rest : List HNode)
    (h : findSib tag L = some (v, rest)) :
    ∃ pre, L = pre ++ v :: rest ∧ (∀ x ∈ pre, isElemTag x tag = false) ∧
      isElemTag v tag = true := by
  induction L generalizing v rest with
  | nil => simp [findSib] at h
  | cons c t ih =>
    by_cases hc : isElemTag c tag
    · rw [findSib, if_pos hc] at h
      injection h with h'
      injection h' with h1 h2
      subst h1; subst h2
      exact ⟨[], rfl, by simp, hc⟩
    · rw [findSib, if_neg hc] at h
      obtain ⟨pre, hL, hpre, hv⟩ := ih _ _ h
      refine ⟨c :: pre, by rw [hL]; rfl, ?_, hv⟩
      intro x hx
      rcases List.mem_cons.mp hx with rfl | hx'
      · simpa using hc
      · exact hpre x hx'

theorem findSib_none (tag : String) (L : List HNode) (h : findSib tag L = none) :
    ∀ x ∈ L, isElemTag x tag = false := by
  induction L with
  | nil => simp
  | cons c t ih =>
    by_cases hc : isElemTag c tag
    · rw [findSib, if_pos hc] at h
      exact absurd h (by simp)
    · rw [findSib, if_neg hc] at h
      intro x hx
      rcases List.mem_cons.mp hx with rfl | hx'
      · simpa using hc
      · exact ih h x hx'

/-- The behaviour of one `Sibling` call on an error-free cursor: either
the resume chain splits at the first matching element and the cursor
moves there (resume pointer just past it), or nothing matches and only
the sticky error is set. -/
theorem sibling_spec (c : Cursor) (tag : String) (h : c.err = none) :
    (∃ pre v rest, c.nxt = pre ++ v :: rest ∧ (∀ x ∈ pre, isElemTag x tag = false) ∧
        isElemTag v tag = true ∧
        Cursor.Sibling tag c = ⟨v :: rest, rest, none, c.stack⟩) ∨
      ((∀ x ∈ c.nxt, isElemTag x tag = false) ∧
        Cursor.Sibling tag c = ⟨c.cur, c.nxt, some ("no sibling tag " ++ tag), c.stack⟩) := by
  obtain ⟨ccur, cnxt, cerr, cstack⟩ := c
  simp only at h
  subst h
  cases hf : findSib tag cnxt with
  | some p =>
    obtain ⟨v, rest⟩ := p
    obtain ⟨pre, hL, hpre, hv⟩ := findSib_some tag cnxt v rest hf
    exact Or.inl ⟨pre, v, rest, hL, hpre, hv, by simp [Cursor.Sibling, hf]⟩
  | none =>
    exact Or.inr ⟨findSib_none tag cnxt hf, by simp [Cursor.Sibling, hf]⟩

/-- C6: monotonic sibling navigation.  (i) A `Sibling` call on an
error-free cursor scans only the resume chain `nxt`: on success it moves
to the first matching element there and the new resume chain is the
strictly shorter suffix just past it (so repeated successful calls visit
matching elements in strictly increasing document order, each at most
once); on failure only the sticky error is set.  (ii) Two consecutive
successful `Sibling` calls strictly shrink the resume chain twice.
(iii) `Child` moves to the first child element with the given tag, and
sets the sticky error (leaving the cursor parked on the child list) when
no such child exists. -/
theorem c6_monotonic_navigation (c : Cursor) (tag : String) (h : c.err = none) :
    ((∃ pre v rest, c.nxt = pre ++ v :: rest ∧ (∀ x ∈ pre, isElemTag x tag = false) ∧
        isElemTag v tag = true ∧
        Cursor.Sibling tag c = ⟨v :: rest, rest, none, c.stack⟩ ∧
        rest.length < c.nxt.length) ∨
      ((∀ x ∈ c.nxt, isElemTag x tag = false) ∧
        Cursor.Sibling tag c = ⟨c.cur, c.nxt, some ("no sibling tag " ++ tag), c.stack⟩)) ∧
    (∀ tag2, (Cursor.Sibling tag2 (Cursor.Sibling tag c)).err = none →
      (Cursor.Sibling tag2 (Cursor.Sibling tag c)).nxt.length <
          (Cursor.Sibling tag c).nxt.length ∧
        (Cursor.Sibling tag c).nxt.length < c.nxt.length) ∧
    (∀ n s, c.cur = n :: s →
      ((∃ pre v rest, childrenOf n = pre ++ v :: rest ∧
          (∀ x ∈ pre, isElemTag x tag = false) ∧ isElemTag v tag = true ∧
          Cursor.Child tag c = ⟨v :: rest, rest, none, c.stack⟩) ∨
        ((∀ x ∈ childrenOf n, isElemTag x tag = false) ∧
          Cursor.Child tag c =
            ⟨childrenOf n, childrenOf n, some ("no sibling tag " ++ tag), c.stack⟩))) := by
  refine ⟨?_, ?_, ?_⟩
  · rcases sibling_spec c tag h with ⟨pre, v, rest, hL, hpre, hv, heq⟩ | ⟨hall, heq⟩
    · exact Or.inl ⟨pre, v, rest, hL, hpre, hv, heq, by rw [hL]; simp; omega⟩
    · exact Or.inr ⟨hall, heq⟩
  · intro tag2 h2
    rcases sibling_spec c tag h with ⟨pre, v, rest, hL, _, _, heq⟩ | ⟨_, heq⟩
    · have herr1 : (Cursor.Sibling tag c).err = none := by rw [heq]
      rcases sibling_spec (Cursor.Sibling tag c) tag2 herr1 with
        ⟨pre2, v2, rest2, hL2, _, _, heq2⟩ | ⟨_, heq2⟩
      · constructor
        · rw [heq2]
          simp only
          rw [hL2]
          simp
          omega
        · rw [heq]
          simp only
          rw [hL]
          simp
          omega
      · rw [heq2] at h2
        simp at h2
    · rw [heq] at h2
      rw [show (Cursor.Sibling tag2
          (⟨c.cur, c.nxt, some ("no sibling tag " ++ tag), c.stack⟩ : Cursor)).err =
          some ("no sibling tag " ++ tag) by simp [Cursor.Sibling]] at h2
      simp at h2
  · intro n s hcur
    have hch : Cursor.Child tag c =
        Cursor.Sibling tag ⟨childrenOf n, childrenOf n, none, c.stack⟩ := by
      obtain ⟨ccur, cnxt, cerr, cstack⟩ := c
      simp only at h hcur
      subst h
      subst hcur
      simp [Cursor.Child]
    rcases sibling_spec ⟨childrenOf n, childrenOf n, none, c.stack⟩ tag rfl with
      ⟨pre, v, rest, hL, hpre, hv, heq⟩ | ⟨hall, heq⟩
    · simp only at hL
      exact Or.inl ⟨pre, v, rest, hL, hpre, hv, by rw [hch, heq]⟩
    · simp only at hall
      exact Or.inr ⟨hall, by rw [hch, heq]⟩

/-- Witness for C6: the characterization instantiated at a concrete
cursor whose resume chain is `[text "x", <tr><td/></tr>]` and whose
current node is `<tr><td/></tr>`, with tag `"tr"`. -/
theorem c6_monotonic_navigation_witness :
    ((∃ pre v rest,
        (⟨[HNode.elem "tr" [] [HNode.elem "td" [] []]],
          [HNode.text "x", HNode.elem "tr" [] [HNode.elem "td" [] []]], none, []⟩ : Cursor).nxt =
            pre ++ v :: rest ∧
        (∀ x ∈ pre, isElemTag x "tr" = false) ∧
        isElemTag v "tr" = true ∧
        Cursor.Sibling "tr" ⟨[HNode.elem "tr" [] [HNode.elem "td" [] []]],
            [HNode.text "x", HNode.elem "tr" [] [HNode.elem "td" [] []]], none, []⟩ =
          ⟨v :: rest, rest, none,
            (⟨[HNode.elem "tr" [] [HNode.elem "td" [] []]],
              [HNode.text "x", HNode.elem "tr" [] [HNode.elem "td" [] []]], none, []⟩ : Cursor).stack⟩ ∧
        rest.length <
          (⟨[HNode.elem "tr" [] [HNode.elem "td" [] []]],
            [HNode.text "x", HNode.elem "tr" [] [HNode.elem "td" [] []]], none, []⟩ : Cursor).nxt.length) ∨
      ((∀ x ∈ (⟨[HNode.elem "tr" [] [HNode.elem "td" [] []]],
          [HNode.text "x", HNode.elem "tr" [] [HNode.elem "td" [] []]], none, []⟩ : Cursor).nxt,
            isElemTag x "tr" = false) ∧
        Cursor.Sibling "tr" ⟨[HNode.elem "tr" [] [HNode.elem "td" [] []]],
            [HNode.text "x", HNode.elem "tr" [] [HNode.elem "td" [] []]], none, []⟩ =
          ⟨(⟨[HNode.elem "tr" [] [HNode.elem "td" [] []]],
              [HNode.text "x", HNode.elem "tr" [] [HNode.elem "td" [] []]], none, []⟩ : Cursor).cur,
            (⟨[HNode.elem "tr" [] [HNode.elem "td" [] []]],
              [HNode.text "x", HNode.elem "tr" [] [HNode.elem "td" [] []]], none, []⟩ : Cursor).nxt,
            some ("no sibling tag " ++ "tr"),
            (⟨[HNode.elem "tr" [] [HNode.elem "td" [] []]],
              [HNode.text "x", HNode.elem "tr" [] [HNode.elem "td" [] []]], none, []⟩ : Cursor).stack⟩)) ∧
    (∀ tag2, (Cursor.Sibling tag2 (Cursor.Sibling "tr"
          ⟨[HNode.elem "tr" [] [HNode.elem "td" [] []]],
            [HNode.text "x", HNode.elem "tr" [] [HNode.elem "td" [] []]], none, []⟩)).err = none →
      (Cursor.Sibling tag2 (Cursor.Sibling "tr"
          ⟨[HNode.elem "tr" [] [HNode.elem "td" [] []]],
            [HNode.text "x", HNode.elem "tr" [] [HNode.elem "td" [] []]], none, []⟩)).nxt.length <
          (Cursor.Sibling "tr" ⟨[HNode.elem "tr" [] [HNode.elem "td" [] []]],
            [HNode.text "x", HNode.elem "tr" [] [HNode.elem "td" [] []]], none, []⟩).nxt.length ∧
        (Cursor.Sibling "tr" ⟨[HNode.elem "tr" [] [HNode.elem "td" [] []]],
            [HNode.text "x", HNode.elem "tr" [] [HNode.elem "td" [] []]], none, []⟩).nxt.length <
          (⟨[HNode.elem "tr" [] [HNode.elem "td" [] []]],
            [HNode.text "x", HNode.elem "tr" [] [HNode.elem "td" [] []]], none, []⟩ : Cursor).nxt.length) ∧
    (∀ n s, (⟨[HNode.elem "tr" [] [HNode.elem "td" [] []]],
        [HNode.text "x", HNode.elem "tr" [] [HNode.elem "td" [] []]], none, []⟩ : Cursor).cur = n :: s →
      ((∃ pre v rest, childrenOf n = pre ++ v :: rest ∧
          (∀ x ∈ pre, isElemTag x "tr" = false) ∧ isElemTag v "tr" = true ∧
          Cursor.Child "tr" ⟨[HNode.elem "tr" [] [HNode.elem "td" [] []]],
              [HNode.text "x", HNode.elem "tr" [] [HNode.elem "td" [] []]], none, []⟩ =
            ⟨v :: rest, rest, none,
              (⟨[HNode.elem "tr" [] [HNode.elem "td" [] []]],
                [HNode.text "x", HNode.elem "tr" [] [HNode.elem "td" [] []]], none, []⟩ : Cursor).stack⟩) ∨
        ((∀ x ∈ childrenOf n, isElemTag x "tr" = false) ∧
          Cursor.Child "tr" ⟨[HNode.elem "tr" [] [HNode.elem "td" [] []]],
              [HNode.text "x", HNode.elem "tr" [] [HNode.elem "td" [] []]], none, []⟩ =
            ⟨childrenOf n, childrenOf n, some ("no sibling tag " ++ "tr"),
              (⟨[HNode.elem "tr" [] [HNode.elem "td" [] []]],
                [HNode.text "x", HNode.elem "tr" [] [HNode.elem "td" [] []]], none, []⟩ : Cursor).stack⟩))) :=
  c6_monotonic_navigation
    ⟨[HNode.elem "tr" [] [HNode.elem "td" [] []]],
      [HNode.text "x", HNode.elem "tr" [] [HNode.elem "td" [] []]], none, []⟩ "tr" rfl

/-! ## Step equations for the classifier loop -/

theorem loopRows_cons_none (hs : List String) (r : HNode) (rest : List HNode) (l : Ledger) :
    loopRows hs (r :: rest) none l =
      (if isElemTag r "tr" then
        match rowVals r with
        | .error m => .fatal ("bad row: " ++ m)
        | .ok values =>
          match actionOf hs values with
          | none => .crash "index out of range"
          | some a =>
            if a == "Lapse" then
              match writeAll hs values l.Next with
              | none => .crash "index out of range"
              | some l1 => loopRows hs rest (some .lapse) l1
            else if a == "Deposit" || a == "Forced Quick Sell" then
              match writeAll hs values l.Next with
              | none => .crash "index out of range"
              | some l1 => loopRows hs rest (some .dep) l1
            else if a == "Exer and Hold" || a == "Sale" then
              loopRows hs rest (some (.fan values)) l
            else if a == "Journal" then
              loopRows hs rest (some .journal) l
            else if a == "Forced Disbursement" then
              loopRows hs rest none l
            else .fatal ("unknown row type \"" ++ a ++ "\"")
      else loopRows hs rest none l) := rfl

theorem loopRows_cons_some (hs : List String) (r : HNode) (rest : List HNode)
    (p : Pending) (l : Ledger) :
    loopRows hs (r :: rest) (some p) l =
      (if isElemTag r "tr" then
        match p with
        | .journal => loopRows hs rest none l
        | .lapse =>
          match more1Res r with
          | .error m => .fatal m
          | .ok m => loopRows hs rest none (writeEach l m)
        | .dep =>
          match moreRes r with
          | .error m => .fatal m
          | .ok [e] => loopRows hs rest none (writeEach l e)
          | .ok es => .fatal ("Expected one row; got " ++ toString es.length)
        | .fan values =>
          match moreRes r with
          | .error m => .fatal m
          | .ok [] => .fatal "empty \"more details\" for Exer and Hold"
          | .ok es =>
            match fanOut hs values es l with
            | none => .crash "index out of range"
            | some l1 => loopRows hs rest none l1
      else loopRows hs rest (some p) l) := rfl

/-! ## Header-mapping lemmas -/

theorem keysOf_idxPairsFrom (i : Nat) (hs : List String) :
    keysOf (idxPairsFrom i hs) = hs := by
  induction hs generalizing i with
  | nil => rfl
  | cons h t ih =>
    show (h, i).1 :: keysOf (idxPairsFrom (i + 1) t) = h :: t
    rw [ih]

theorem look_headerPairs (hs : List String) (k : String) :
    look (headerPairs hs) k = lastLook (idxPairsFrom 0 hs) k := by
  rw [headerPairs, look_foldl_upd]
  cases lastLook (idxPairsFrom 0 hs) k <;> simp [look, Option.or]

theorem look_headerPairs_not_mem (hs : List String) (k : String) (h : k ∉ hs) :
    look (headerPairs hs) k = none := by
  rw [look_headerPairs]
  cases hl : lastLook (idxPairsFrom 0 hs) k with
  | none => rfl
  | some v =>
    have hmem : k ∈ keysOf (idxPairsFrom 0 hs) := (lastLook_isSome_iff _ _).mp (by simp [hl])
    rw [keysOf_idxPairsFrom] at hmem
    exact absurd hmem h

theorem look_headerPairs_mem (hs : List String) (k : String) (h : k ∈ hs) :
    look (headerPairs hs) k = some (hLookup hs k) := by
  have hsome : (look (headerPairs hs) k).isSome := by
    rw [look_headerPairs]
    exact (lastLook_isSome_iff _ _).mpr (by rw [keysOf_idxPairsFrom]; exact h)
  cases hl : look (headerPairs hs) k with
  | none => rw [hl] at hsome; cases hsome
  | some i => rw [hLookup, hl]; rfl

/-- C10: a missing `Action` column is not detected.  Building the header
map never records an absent label, and a Go map read returns the zero
value `0` for a missing key, so when no header cell is labelled `Action`
the classifier's `values[header["Action"]]` silently reads the first
column of every data row (and the switch then proceeds or aborts on that
value); no "column absent" error exists in the program. -/
theorem c10_missing_action_column (hs : List String) (h : "Action" ∉ hs) :
    hLookup hs "Action" = 0 ∧ ∀ v vs, actionOf hs (v :: vs) = some v := by
  have h0 : hLookup hs "Action" = 0 := by
    rw [hLookup, look_headerPairs_not_mem hs _ h]
    rfl
  refine ⟨h0, fun v vs => ?_⟩
  rw [actionOf, h0]
  rfl

/-- Witness for C10 at a concrete header row without an `Action` label. -/
theorem c10_missing_action_column_witness :
    hLookup ["Date", "Description", "Symbol"] "Action" = 0 ∧
    ∀ v vs, actionOf ["Date", "Description", "Symbol"] (v :: vs) = some v :=
  c10_missing_action_column ["Date", "Description", "Symbol"] (by decide)

/-- C7: unknown `Action` values are fatal.  A top-level data row whose
`Action` cell is outside the seven recognized values hits the switch's
default case, which calls `log.Fatalf` — the run aborts with a nonzero
exit status and no output is produced, rather than the row being silently
skipped. -/
theorem c7_unknown_action (hs values : List String) (r : HNode) (rest : List HNode)
    (l : Ledger) (a : String)
    (htr : isElemTag r "tr" = true) (hrow : rowVals r = .ok values)
    (hact : actionOf hs values = some a)
    (hunk : a ∉ (["Deposit", "Forced Quick Sell", "Lapse", "Exer and Hold", "Sale",
      "Journal", "Forced Disbursement"] : List String)) :
    loopRows hs (r :: rest) none l = .fatal ("unknown row type \"" ++ a ++ "\"") ∧
    ∀ out, loopRows hs (r :: rest) none l ≠ .ok out := by
  simp only [List.mem_cons, List.not_mem_nil, or_false, not_or] at hunk
  obtain ⟨h1, h2, h3, h4, h5, h6, h7⟩ := hunk
  have heq : loopRows hs (r :: rest) none l =
      .fatal ("unknown row type \"" ++ a ++ "\"") := by
    rw [loopRows_cons_none]
    simp only [htr, hrow, hact, if_true,
      beq_eq_false_iff_ne.mpr h1, beq_eq_false_iff_ne.mpr h2, beq_eq_false_iff_ne.mpr h3,
      beq_eq_false_iff_ne.mpr h4, beq_eq_false_iff_ne.mpr h5, beq_eq_false_iff_ne.mpr h6,
      beq_eq_false_iff_ne.mpr h7, Bool.or_self, Bool.false_or, Bool.false_eq_true,
      if_false]
  refine ⟨heq, fun out hout => ?_⟩
  rw [heq] at hout
  exact Outcome.noConfusion hout

/-- Witness for C7: a row whose `Action` value is `"Bogus"` aborts. -/
theorem c7_unknown_action_witness :
    loopRows ["Action"] [dataTr ["Bogus"]] none ⟨[], []⟩ =
      .fatal ("unknown row type \"" ++ "Bogus" ++ "\"") ∧
    ∀ out, loopRows ["Action"] [dataTr ["Bogus"]] none ⟨[], []⟩ ≠ .ok out :=
  c7_unknown_action ["Action"] ["Bogus"] (dataTr ["Bogus"]) [] ⟨[], []⟩ "Bogus"
    rfl rfl rfl (by decide)

/-! ## C1 and C9: end-of-run behaviour on concrete documents -/

theorem mainRun_eq_of_find (doc root : HNode) (h : findHistory doc = some root) :
    mainRun doc = mainFromRoot root := by
  unfold mainRun
  rw [h]

theorem findHistory_docOneDeposit : findHistory docOneDeposit =
    some (anchorFor (.elem "tbody" [] [sampleHeaderTr, depositTr, depositDetails])) := by
  simp [findHistory, findHistoryL, docOneDeposit, anchorFor, sampleHeaderTr, depositTr,
    depositDetails, dataTr, labelCell, detailsNode, bCell, tCell, attrHistory]

theorem findHistory_docTwoDeposits : findHistory docTwoDeposits =
    some (anchorFor (.elem "tbody" []
      [sampleHeaderTr, depositTr, depositDetails, depositTr, depositDetails])) := by
  simp [findHistory, findHistoryL, docTwoDeposits, anchorFor, sampleHeaderTr, depositTr,
    depositDetails, dataTr, labelCell, detailsNode, bCell, tCell, attrHistory]

theorem findHistory_docBareAnchor :
    findHistory docBareAnchor = some (.elem "a" [("name", "History")] []) := by
  simp [findHistory, findHistoryL, docBareAnchor, attrHistory]

/-- C1: the claim that every still-pending non-empty ledger entry is
committed at end of input fails on the code: `main` encodes `l.entries`
after the loop without a final `l.Next()`, so the last constructed entry
is dropped.  On a document whose single `Deposit` row has a valid
one-mapping details row, the details extraction succeeds and the entry is
built — yet the program prints `[]`.  With the same deposit duplicated,
only the first entry (committed by the second row's `Next`) appears. -/
theorem c1_last_pending_entry_dropped :
    moreRes depositDetails = .ok [[("Shares", "10"), ("Price", "1.00")]] ∧
    mainRun docOneDeposit = .ok [] ∧
    mainRun docTwoDeposits = .ok [[("Date", "01/02/2020"), ("Description", "RSU"),
      ("Action", "Deposit"), ("Symbol", "ABC"), ("Shares", "10"), ("Price", "1.00")]] :=
  ⟨rfl,
   (mainRun_eq_of_find _ _ findHistory_docOneDeposit).trans rfl,
   (mainRun_eq_of_find _ _ findHistory_docTwoDeposits).trans rfl⟩

/-- C9: the claim that the `tbody`-shape check never reads a nil node
fails on the code: when the history anchor has no children, the first
`Child("table")` sets the current node to nil (and the sticky error), the
remaining `Child` calls are no-ops, and `main` reaches
`n.Type != html.ElementNode || n.Data != "tbody"` — field reads through a
nil `*html.Node` — *before* any `Ok` check: a runtime panic, not the
structural-mismatch error path. -/
theorem c9_tbody_check_nil_deref :
    mainRun docBareAnchor = .crash "invalid memory address or nil pointer dereference" :=
  (mainRun_eq_of_find _ _ findHistory_docBareAnchor).trans rfl

/-! ## Ledger-writing lemmas -/

theorem ledger_next_spec (l : Ledger) :
    (l.Next).entries = l.entries ++ (if l.e.isEmpty then [] else [l.e]) ∧
    (l.Next).e = [] := by
  rw [Ledger.Next]
  split <;> simp_all

theorem writeEach_spec (l : Ledger) (m : Entry) :
    (writeEach l m).entries = l.entries ∧
    (writeEach l m).e = m.foldl (fun e p => upd e p.1 p.2) l.e := by
  induction m generalizing l with
  | nil => exact ⟨rfl, rfl⟩
  | cons p t ih =>
    have h1 : writeEach l (p :: t) = writeEach (l.Write p.1 p.2) t := rfl
    rw [h1]
    obtain ⟨he, hee⟩ := ih (l.Write p.1 p.2)
    exact ⟨he, by rw [hee]; rfl⟩

theorem look_writeEach (l : Ledger) (m : Entry) (hnd : (keysOf m).Nodup) (k : String) :
    look (writeEach l m).e k = (look m k).or (look l.e k) := by
  rw [(writeEach_spec l m).2, look_foldl_upd, lastLook_eq_look_of_nodup m k hnd]

theorem look_map_keydep {α β : Type} (f : (String × α) → β) (m : List (String × α)) (k : String) :
    look (m.map (fun p => (p.1, f p))) k = (m.find? (fun p => p.1 == k)).map f := by
  induction m with
  | nil => rfl
  | cons p t ih =>
    by_cases h : p.1 = k
    · simp [look, List.find?_cons, h]
    · have hb : (p.1 == k) = false := by simpa using h
      simp only [List.map_cons]
      rw [look_cons, if_neg h, ih, List.find?_cons, hb]

theorem keysOf_map_keydep {α β : Type} (f : (String × α) → β) (m : List (String × α)) :
    keysOf (m.map (fun p => (p.1, f p))) = keysOf m := by
  induction m with
  | nil => rfl
  | cons p t ih =>
    show p.1 :: keysOf (t.map (fun p => (p.1, f p))) = p.1 :: keysOf t
    rw [ih]

theorem writeAllAux_some (values : List String) (ps : List (String × Nat)) (l l1 : Ledger)
    (h : writeAllAux values ps l = some l1) :
    l1.entries = l.entries ∧
    (∀ p ∈ ps, (values.get? p.2).isSome) ∧
    l1.e = (ps.map (fun p => (p.1, (values.get? p.2).getD ""))).foldl
      (fun e q => upd e q.1 q.2) l.e := by
  induction ps generalizing l with
  | nil =>
    injection h with h'
    subst h'
    exact ⟨rfl, by simp, rfl⟩
  | cons p t ih =>
    have hstep : writeAllAux values (p :: t) l =
        (match values.get? p.2 with
         | none => none
         | some v => writeAllAux values t (l.Write p.1 v)) := rfl
    rw [hstep] at h
    cases hv : values.get? p.2 with
    | none => rw [hv] at h; cases h
    | some v =>
      rw [hv] at h
      obtain ⟨he, hall, hee⟩ := ih (l.Write p.1 v) h
      refine ⟨he, ?_, ?_⟩
      · intro q hq
        rcases List.mem_cons.mp hq with hq' | hq'
        · rw [hq', hv]
          rfl
        · exact hall q hq'
      · rw [hee]
        show _ = (t.map _).foldl _ (upd l.e p.1 ((values.get? p.2).getD ""))
        rw [hv]
        rfl

theorem writeAll_char (hs values : List String) (l l1 : Ledger)
    (h : writeAll hs values l = some l1) :
    l1.entries = l.entries ∧
    (∀ k, k ∈ hs → look l1.e k = values.get? (hLookup hs k)) ∧
    (∀ k, k ∉ hs → look l1.e k = look l.e k) := by
  obtain ⟨he, hall, hee⟩ := writeAllAux_some values (headerPairs hs) l l1 h
  have hnd : (keysOf (headerPairs hs)).Nodup :=
    nodup_keys_foldl_upd _ [] (by simp [keysOf])
  have hndm : (keysOf ((headerPairs hs).map
      (fun p => (p.1, (values.get? p.2).getD "")))).Nodup := by
    rw [keysOf_map_keydep]
    exact hnd
  refine ⟨he, ?_, ?_⟩
  · intro k hk
    rw [hee, look_foldl_upd, lastLook_eq_look_of_nodup _ _ hndm, look_map_keydep]
    have hlk : look (headerPairs hs) k = some (hLookup hs k) := look_headerPairs_mem hs k hk
    rw [look] at hlk
    cases hf : (headerPairs hs).find? (fun p => p.1 == k) with
    | none => rw [hf] at hlk; cases hlk
    | some q =>
      rw [hf] at hlk
      have hq2 : q.2 = hLookup hs k := by
        injection hlk
      have hqs : (values.get? q.2).isSome := hall q (List.mem_of_find?_eq_some hf)
      cases hvq : values.get? q.2 with
      | none => rw [hvq] at hqs; cases hqs
      | some v =>
        simp only [Option.map_some']
        rw [hvq, ← hq2, hvq]
        rfl
  · intro k hk
    rw [hee, look_foldl_upd, lastLook_eq_look_of_nodup _ _ hndm, look_map_keydep]
    have hlk : look (headerPairs hs) k = none := look_headerPairs_not_mem hs k hk
    rw [look] at hlk
    cases hf : (headerPairs hs).find? (fun p => p.1 == k) with
    | some q => rw [hf] at hlk; cases hlk
    | none => simp [Option.or]

/-! ## Shape of the mappings produced by `more` -/

theorem moreRows_cons (hs : List String) (c : HNode) (t : List HNode) :
    moreRows hs (c :: t) =
      (if isElemTag c "tr" then
        if hs.length ≤ (tdTexts (childrenOf c)).length then
          mkRow hs (tdTexts (childrenOf c)) :: moreRows hs t
        else moreRows hs t
      else moreRows hs t) := rfl

theorem mkRow_keys_nodup (hs cells : List String) : (keysOf (mkRow hs cells)).Nodup :=
  nodup_keys_foldl_upd _ [] (by simp [keysOf])

theorem moreRows_shape (hs : List String) (rest : List HNode) :
    ∀ m ∈ moreRows hs rest, ∃ r, isElemTag r "tr" = true ∧
      hs.length ≤ (tdTexts (childrenOf r)).length ∧
      m = mkRow hs (tdTexts (childrenOf r)) := by
  induction rest with
  | nil => intro m hm; cases hm
  | cons c t ih =>
    intro m hm
    rw [moreRows_cons] at hm
    by_cases h1 : isElemTag c "tr"
    · rw [if_pos h1] at hm
      by_cases h2 : hs.length ≤ (tdTexts (childrenOf c)).length
      · rw [if_pos h2] at hm
        rcases List.mem_cons.mp hm with hq | hq
        · exact ⟨c, h1, h2, hq⟩
        · exact ih m hq
      · rw [if_neg h2] at hm
        exact ih m hm
    · rw [if_neg h1] at hm
      exact ih m hm

theorem moreRes_eq (tr : HNode) :
    moreRes tr =
      (match (Cursor.Child "tr" (Cursor.Child "tbody" (Cursor.Sibling "table"
          (Cursor.Child "table" (Cursor.Child "div" (Cursor.Child "div"
            (Cursor.Child "td" ⟨[tr], [tr], none, []⟩))))))).err with
      | some m => .error m
      | none =>
        match (Cursor.Child "tr" (Cursor.Child "tbody" (Cursor.Sibling "table"
            (Cursor.Child "table" (Cursor.Child "div" (Cursor.Child "div"
              (Cursor.Child "td" ⟨[tr], [tr], none, []⟩))))))).cur with
        | [] => .error "unreachable"
        | h :: rest => .ok (moreRows (stripTrailingEmpty (headerCells (childrenOf h))) rest)) :=
  rfl

theorem moreRes_ok_entries (tr : HNode) (es : List Entry) (h : moreRes tr = .ok es) :
    ∃ hs rest, es = moreRows hs rest := by
  rw [moreRes_eq] at h
  generalize Cursor.Child "tr" (Cursor.Child "tbody" (Cursor.Sibling "table"
      (Cursor.Child "table" (Cursor.Child "div" (Cursor.Child "div"
        (Cursor.Child "td" ⟨[tr], [tr], none, []⟩)))))) = c at h
  split at h
  · cases h
  · split at h
    · cases h
    · injection h with h'
      exact ⟨_, _, h'.symm⟩

theorem moreRes_entry_nodup (tr : HNode) (es : List Entry) (h : moreRes tr = .ok es) :
    ∀ e ∈ es, (keysOf e).Nodup := by
  obtain ⟨hs, rest, rfl⟩ := moreRes_ok_entries tr es h
  intro e he
  obtain ⟨r, _, _, rfl⟩ := moreRows_shape hs rest e he
  exact mkRow_keys_nodup _ _

/-- C4: cardinality enforcement for `Deposit`/`Forced Quick Sell` rows.
(i) Such a primary row commits the previous entry, writes every
primary-row field into the fresh entry, and leaves the loop owing a
details visit.  (ii) If the details extraction yields any number of
mappings other than exactly one, the run hits `log.Fatalf` — a nonzero
exit with no output.  (iii) With exactly one mapping, its pairs are
merged into the current entry on top of the primary-row fields (the
mapping's value wins on a shared key). -/
theorem c4_deposit_cardinality (hs : List String) :
    (∀ values (r : HNode) rest (l l1 : Ledger) a,
      isElemTag r "tr" = true → rowVals r = .ok values →
      actionOf hs values = some a → (a = "Deposit" ∨ a = "Forced Quick Sell") →
      writeAll hs values l.Next = some l1 →
      loopRows hs (r :: rest) none l = loopRows hs rest (some .dep) l1 ∧
      (∀ k, k ∈ hs → look l1.e k = values.get? (hLookup hs k)) ∧
      (∀ k, k ∉ hs → look l1.e k = none)) ∧
    (∀ (d : HNode) rest (l : Ledger) es,
      isElemTag d "tr" = true → moreRes d = .ok es → es.length ≠ 1 →
      loopRows hs (d :: rest) (some .dep) l =
        .fatal ("Expected one row; got " ++ toString es.length) ∧
      ∀ out, loopRows hs (d :: rest) (some .dep) l ≠ .ok out) ∧
    (∀ (d : HNode) rest (l : Ledger) e,
      isElemTag d "tr" = true → moreRes d = .ok [e] →
      loopRows hs (d :: rest) (some .dep) l = loopRows hs rest none (writeEach l e) ∧
      (writeEach l e).entries = l.entries ∧
      ∀ k, look (writeEach l e).e k = (look e k).or (look l.e k)) := by
  refine ⟨?_, ?_, ?_⟩
  · intro values r rest l l1 a htr hrow hact hdep hw
    have hnexte : (l.Next).e = [] := (ledger_next_spec l).2
    obtain ⟨_, hmem, hnot⟩ := writeAll_char hs values l.Next l1 hw
    refine ⟨?_, hmem, fun k hk => by rw [hnot k hk, hnexte]; rfl⟩
    rw [loopRows_cons_none]
    rcases hdep with rfl | rfl <;>
      simp only [htr, hrow, hact, if_true, hw] <;> rfl
  · intro d rest l es htr hm hlen
    have heq : loopRows hs (d :: rest) (some .dep) l =
        .fatal ("Expected one row; got " ++ toString es.length) := by
      rw [loopRows_cons_some]
      simp only [htr, if_true, hm]
      cases es with
      | nil => rfl
      | cons e1 t =>
        cases t with
        | nil => exact absurd rfl hlen
        | cons e2 t2 => rfl
    refine ⟨heq, fun out hout => ?_⟩
    rw [heq] at hout
    exact Outcome.noConfusion hout
  · intro d rest l e htr hm
    have hnd : (keysOf e).Nodup := moreRes_entry_nodup d [e] hm e (by simp)
    refine ⟨?_, (writeEach_spec l e).1, fun k => look_writeEach l e hnd k⟩
    rw [loopRows_cons_some]
    simp only [htr, if_true, hm]

/-- Witness for C4 at the concrete sample: the `Deposit` row enters the
details-owed state with all four header fields written, a two-mapping
details row is fatal, and a one-mapping details row merges. -/
theorem c4_deposit_cardinality_witness :
    (loopRows ["Date", "Description", "Action", "Symbol"] [depositTr] none ⟨[], []⟩ =
      loopRows ["Date", "Description", "Action", "Symbol"] [] (some .dep)
        ⟨[], [("Date", "01/02/2020"), ("Description", "RSU"), ("Action", "Deposit"),
          ("Symbol", "ABC")]⟩) ∧
    (loopRows ["Date", "Description", "Action", "Symbol"]
        [detailsNode ["Shares", "Price"] [["10", "1.00"], ["20", "2.00"]]] (some .dep) ⟨[], []⟩ =
      .fatal ("Expected one row; got " ++ toString
        ([[("Shares", "10"), ("Price", "1.00")], [("Shares", "20"), ("Price", "2.00")]] :
          List Entry).length)) ∧
    (loopRows ["Date", "Description", "Action", "Symbol"] [depositDetails] (some .dep) ⟨[], []⟩ =
      loopRows ["Date", "Description", "Action", "Symbol"] [] none
        (writeEach ⟨[], []⟩ [("Shares", "10"), ("Price", "1.00")])) :=
  ⟨((c4_deposit_cardinality ["Date", "Description", "Action", "Symbol"]).1
      ["01/02/2020", "RSU", "Deposit", "ABC"] depositTr [] ⟨[], []⟩
      ⟨[], [("Date", "01/02/2020"), ("Description", "RSU"), ("Action", "Deposit"),
        ("Symbol", "ABC")]⟩ "Deposit" rfl rfl rfl (Or.inl rfl) rfl).1,
   ((c4_deposit_cardinality ["Date", "Description", "Action", "Symbol"]).2.1
      (detailsNode ["Shares", "Price"] [["10", "1.00"], ["20", "2.00"]]) [] ⟨[], []⟩
      [[("Shares", "10"), ("Price", "1.00")], [("Shares", "20"), ("Price", "2.00")]]
      rfl rfl (by decide)).1,
   ((c4_deposit_cardinality ["Date", "Description", "Action", "Symbol"]).2.2
      depositDetails [] ⟨[], []⟩
      [("Shares", "10"), ("Price", "1.00")] rfl rfl).1⟩

/-! ## Fan-out lemmas -/

theorem upd_ne_nil {α : Type} (m : List (String × α)) (k : String) (v : α) :
    upd m k v ≠ [] := by
  simp [upd]

theorem foldl_upd_pairs_ne_nil {α : Type} (ps : List (String × α)) (m0 : List (String × α))
    (h : m0 ≠ []) : ps.foldl (fun m p => upd m p.1 p.2) m0 ≠ [] := by
  induction ps generalizing m0 with
  | nil => exact h
  | cons p t ih => exact ih _ (upd_ne_nil _ _ _)

theorem coreBase_ne_nil (hs values : List String) :
    coreKeys.foldl (fun acc k => upd acc k ((values.get? (hLookup hs k)).getD "")) [] ≠ [] :=
  upd_ne_nil _ _ _

theorem fanEntry_ne_nil (hs values : List String) (e : Entry) : fanEntry hs values e ≠ [] := by
  rw [fanEntry]
  exact foldl_upd_pairs_ne_nil e _ (coreBase_ne_nil hs values)

theorem writeCoreAux_some (hs values : List String) (ks : List String) (l l1 : Ledger)
    (h : writeCoreAux hs values ks l = some l1) :
    l1.entries = l.entries ∧
    l1.e = ks.foldl (fun acc k => upd acc k ((values.get? (hLookup hs k)).getD "")) l.e := by
  induction ks generalizing l with
  | nil =>
    injection h with h'
    subst h'
    exact ⟨rfl, rfl⟩
  | cons k ks ih =>
    have hstep : writeCoreAux hs values (k :: ks) l =
        (match values.get? (hLookup hs k) with
         | none => none
         | some v => writeCoreAux hs values ks (l.Write k v)) := rfl
    rw [hstep] at h
    cases hv : values.get? (hLookup hs k) with
    | none => rw [hv] at h; cases h
    | some v =>
      rw [hv] at h
      obtain ⟨he, hee⟩ := ih (l.Write k v) h
      refine ⟨he, ?_⟩
      rw [hee]
      show _ = ks.foldl _ (upd l.e k ((values.get? (hLookup hs k)).getD ""))
      rw [hv]
      rfl

theorem look_coreBase (hs values : List String) (k : String) :
    look (coreKeys.foldl (fun acc k' => upd acc k' ((values.get? (hLookup hs k')).getD "")) []) k =
      (if k ∈ coreKeys then some ((values.get? (hLookup hs k)).getD "") else none) := by
  show look (upd (upd (upd (upd []
    "Date" ((values.get? (hLookup hs "Date")).getD ""))
    "Description" ((values.get? (hLookup hs "Description")).getD ""))
    "Action" ((values.get? (hLookup hs "Action")).getD ""))
    "Symbol" ((values.get? (hLookup hs "Symbol")).getD "")) k = _
  rw [look_upd, look_upd, look_upd, look_upd]
  by_cases h1 : k = "Symbol"
  · subst h1; simp [coreKeys]
  · rw [if_neg h1]
    by_cases h2 : k = "Action"
    · subst h2; simp [coreKeys]
    · rw [if_neg h2]
      by_cases h3 : k = "Description"
      · subst h3; simp [coreKeys]
      · rw [if_neg h3]
        by_cases h4 : k = "Date"
        · subst h4; simp [coreKeys]
        · rw [if_neg h4]
          rw [if_neg (by simp [coreKeys, h1, h2, h3, h4])]
          rfl

theorem look_fanEntry (hs values : List String) (e : Entry) (hnd : (keysOf e).Nodup)
    (k : String) :
    look (fanEntry hs values e) k =
      (look e k).or (if k ∈ coreKeys then some ((values.get? (hLookup hs k)).getD "") else none) := by
  rw [fanEntry, look_foldl_upd, lastLook_eq_look_of_nodup e k hnd, look_coreBase]

theorem fanOut_cons_eq (hs values : List String) (e : Entry) (es : List Entry) (l : Ledger) :
    fanOut hs values (e :: es) l =
      (match writeCoreAux hs values coreKeys l.Next with
       | none => none
       | some l1 => fanOut hs values es (writeEach l1 e)) := rfl

theorem fanOut_char (hs values : List String) (es : List Entry) (l l1 : Ledger)
    (h : fanOut hs values es l = some l1) :
    l1.entries ++ [l1.e] =
      (if es.isEmpty then l.entries ++ [l.e]
       else l.entries ++ (if l.e.isEmpty then [] else [l.e]) ++ es.map (fanEntry hs values)) := by
  induction es generalizing l with
  | nil =>
    injection h with h'
    subst h'
    simp
  | cons e t ih =>
    rw [fanOut_cons_eq] at h
    cases hw : writeCoreAux hs values coreKeys l.Next with
    | none => rw [hw] at h; cases h
    | some lc =>
      rw [hw] at h
      obtain ⟨hce, hcee⟩ := writeCoreAux_some hs values coreKeys l.Next lc hw
      have hne := ledger_next_spec l
      have hwe := writeEach_spec lc e
      have hle : (writeEach lc e).entries = l.entries ++ (if l.e.isEmpty then [] else [l.e]) := by
        rw [hwe.1, hce, hne.1]
      have hlee : (writeEach lc e).e = fanEntry hs values e := by
        rw [hwe.2, hcee, hne.2, fanEntry]
      have hih := ih (writeEach lc e) h
      rw [hle, hlee] at hih
      cases t with
      | nil =>
        simp only [List.isEmpty_nil, if_true] at hih
        simp only [List.isEmpty_cons, Bool.false_eq_true, if_false, List.map_cons,
          List.map_nil]
        rw [hih]
      | cons t1 t2 =>
        have hfne : (fanEntry hs values e).isEmpty = false := by
          simpa using fanEntry_ne_nil hs values e
        simp only [List.isEmpty_cons, Bool.false_eq_true, if_false, hfne, List.map_cons] at hih
        simp only [List.isEmpty_cons, Bool.false_eq_true, if_false, List.map_cons]
        rw [hih]
        simp [List.append_assoc]

/-- C3: fan-out for `Exer and Hold`/`Sale` rows.  (i) Such a primary row
writes nothing yet and leaves the loop owing a details visit carrying the
row's values.  (ii) If the details extraction accepts zero mappings the
run hits `log.Fatalf`.  (iii) With `N ≥ 1` accepted mappings, exactly `N`
ledger entries are constructed — the previously pending entry is
committed first, the first `N-1` new entries are committed, and the
`N`-th is left in progress — one per mapping, in the sub-rows' order.
(iv) Each constructed entry holds exactly the four core primary-row
fields `Date`, `Description`, `Action`, `Symbol` plus that one mapping's
key-value pairs (the mapping winning on a shared key). -/
theorem c3_fan_out (hs : List String) :
    (∀ values (r : HNode) rs (l : Ledger) a,
      isElemTag r "tr" = true → rowVals r = .ok values →
      actionOf hs values = some a → (a = "Exer and Hold" ∨ a = "Sale") →
      loopRows hs (r :: rs) none l = loopRows hs rs (some (.fan values)) l) ∧
    (∀ values (d : HNode) rest (l : Ledger),
      isElemTag d "tr" = true → moreRes d = .ok [] →
      loopRows hs (d :: rest) (some (.fan values)) l =
        .fatal "empty \"more details\" for Exer and Hold" ∧
      ∀ out, loopRows hs (d :: rest) (some (.fan values)) l ≠ .ok out) ∧
    (∀ values (d : HNode) rest (l l1 : Ledger) es,
      isElemTag d "tr" = true → moreRes d = .ok es → es ≠ [] →
      fanOut hs values es l = some l1 →
      loopRows hs (d :: rest) (some (.fan values)) l = loopRows hs rest none l1 ∧
      l1.entries ++ [l1.e] =
        l.entries ++ (if l.e.isEmpty then [] else [l.e]) ++ es.map (fanEntry hs values)) ∧
    (∀ values (e : Entry) k, (keysOf e).Nodup →
      look (fanEntry hs values e) k =
        (look e k).or
          (if k ∈ coreKeys then some ((values.get? (hLookup hs k)).getD "") else none)) := by
  refine ⟨?_, ?_, ?_, ?_⟩
  · intro values r rs l a htr hrow hact hfan
    rw [loopRows_cons_none]
    rcases hfan with rfl | rfl <;>
      simp only [htr, hrow, hact, if_true] <;> rfl
  · intro values d rest l htr hm
    have heq : loopRows hs (d :: rest) (some (.fan values)) l =
        .fatal "empty \"more details\" for Exer and Hold" := by
      rw [loopRows_cons_some]
      simp only [htr, if_true, hm]
    refine ⟨heq, fun out hout => ?_⟩
    rw [heq] at hout
    exact Outcome.noConfusion hout
  · intro values d rest l l1 es htr hm hne hfan
    have heq : loopRows hs (d :: rest) (some (.fan values)) l = loopRows hs rest none l1 := by
      rw [loopRows_cons_some]
      cases es with
      | nil => exact absurd rfl hne
      | cons e t => simp only [htr, if_true, hm, hfan]
    have hch := fanOut_char hs values es l l1 hfan
    rw [if_neg (by simpa using hne)] at hch
    exact ⟨heq, hch⟩
  · intro values e k hnd
    exact look_fanEntry hs values e hnd k

/-- Witness for C3 at a concrete `Exer and Hold` row with a two-mapping
details row: the row enters the fan-out state, and the two constructed
entries are the core fields plus one mapping each, in sub-row order with
the second still in progress. -/
theorem c3_fan_out_witness :
    (loopRows ["Date", "Description", "Action", "Symbol"]
        [dataTr ["01/03/2020", "ISO", "Exer and Hold", "XYZ"]] none ⟨[], []⟩ =
      loopRows ["Date", "Description", "Action", "Symbol"] []
        (some (.fan ["01/03/2020", "ISO", "Exer and Hold", "XYZ"])) ⟨[], []⟩) ∧
    ((⟨[[("Date", "01/03/2020"), ("Description", "ISO"), ("Action", "Exer and Hold"),
        ("Symbol", "XYZ"), ("Shares", "10"), ("Price", "1.00")]],
      [("Date", "01/03/2020"), ("Description", "ISO"), ("Action", "Exer and Hold"),
        ("Symbol", "XYZ"), ("Shares", "20"), ("Price", "2.00")]⟩ : Ledger).entries ++
        [(⟨[[("Date", "01/03/2020"), ("Description", "ISO"), ("Action", "Exer and Hold"),
          ("Symbol", "XYZ"), ("Shares", "10"), ("Price", "1.00")]],
          [("Date", "01/03/2020"), ("Description", "ISO"), ("Action", "Exer and Hold"),
          ("Symbol", "XYZ"), ("Shares", "20"), ("Price", "2.00")]⟩ : Ledger).e] =
      (⟨[], []⟩ : Ledger).entries ++
        (if (⟨[], []⟩ : Ledger).e.isEmpty then [] else [(⟨[], []⟩ : Ledger).e]) ++
        ([[("Shares", "10"), ("Price", "1.00")], [("Shares", "20"), ("Price", "2.00")]].map
          (fanEntry ["Date", "Description", "Action", "Symbol"]
            ["01/03/2020", "ISO", "Exer and Hold", "XYZ"]))) ∧
    look (fanEntry ["Date", "Description", "Action", "Symbol"]
        ["01/03/2020", "ISO", "Exer and Hold", "XYZ"] [("Shares", "10")]) "Date" =
      (look [("Shares", "10")] "Date").or
        (if "Date" ∈ coreKeys then
          some ((["01/03/2020", "ISO", "Exer and Hold", "XYZ"].get?
            (hLookup ["Date", "Description", "Action", "Symbol"] "Date")).getD "")
        else none) :=
  ⟨(c3_fan_out ["Date", "Description", "Action", "Symbol"]).1
      ["01/03/2020", "ISO", "Exer and Hold", "XYZ"]
      (dataTr ["01/03/2020", "ISO", "Exer and Hold", "XYZ"]) [] ⟨[], []⟩ "Exer and Hold"
      rfl rfl rfl (Or.inl rfl),
   ((c3_fan_out ["Date", "Description", "Action", "Symbol"]).2.2.1
      ["01/03/2020", "ISO", "Exer and Hold", "XYZ"]
      (detailsNode ["Shares", "Price"] [["10", "1.00"], ["20", "2.00"]]) [] ⟨[], []⟩
      ⟨[[("Date", "01/03/2020"), ("Description", "ISO"), ("Action", "Exer and Hold"),
        ("Symbol", "XYZ"), ("Shares", "10"), ("Price", "1.00")]],
        [("Date", "01/03/2020"), ("Description", "ISO"), ("Action", "Exer and Hold"),
        ("Symbol", "XYZ"), ("Shares", "20"), ("Price", "2.00")]⟩
      [[("Shares", "10"), ("Price", "1.00")], [("Shares", "20"), ("Price", "2.00")]]
      rfl rfl (by simp) rfl).2,
   (c3_fan_out ["Date", "Description", "Action", "Symbol"]).2.2.2
      ["01/03/2020", "ISO", "Exer and Hold", "XYZ"] [("Shares", "10")] "Date"
      (by simp [keysOf])⟩

/-! ## Header-stripping and row-acceptance lemmas -/

theorem head_dropWhile_false {α : Type} (p : α → Bool) (l : List α) (a : α)
    (h : (l.dropWhile p).head? = some a) : p a = false := by
  induction l with
  | nil => cases h
  | cons x t ih =>
    rw [List.dropWhile_cons] at h
    by_cases hp : p x
    · rw [if_pos hp] at h
      exact ih h
    · rw [if_neg hp] at h
      injection h with h'
      subst h'
      simpa using hp

theorem look_mkRow_isSome (hs cells : List String) (hlen : hs.length ≤ cells.length)
    (k : String) :
    (look (mkRow hs cells) k).isSome ↔ k ∈ hs := by
  rw [mkRow, look_foldl_upd]
  have hnil : look ([] : Entry) k = none := rfl
  rw [hnil]
  have hkeys : keysOf (hs.zip cells) = hs := List.map_fst_zip hs cells hlen
  constructor
  · intro hsome
    cases hl : lastLook (hs.zip cells) k with
    | none => rw [hl] at hsome; cases hsome
    | some v =>
      have := (lastLook_isSome_iff (hs.zip cells) k).mp (by simp [hl])
      rwa [hkeys] at this
  · intro hk
    have := (lastLook_isSome_iff (hs.zip cells) k).mpr (by rw [hkeys]; exact hk)
    cases hl : lastLook (hs.zip cells) k with
    | none => rw [hl] at this; cases this
    | some v => simp [hl, Option.or]

theorem moreRows_filterMap (hs : List String) (rest : List HNode) :
    moreRows hs rest = rest.filterMap (fun r =>
      if isElemTag r "tr" then
        if hs.length ≤ (tdTexts (childrenOf r)).length then
          some (mkRow hs (tdTexts (childrenOf r)))
        else none
      else none) := by
  induction rest with
  | nil => rfl
  | cons c t ih =>
    rw [moreRows_cons, List.filterMap_cons]
    by_cases h1 : isElemTag c "tr"
    · by_cases h2 : hs.length ≤ (tdTexts (childrenOf c)).length
      · rw [if_pos h1, if_pos h2, if_pos h1, if_pos h2, ih]
      · rw [if_pos h1, if_neg h2, if_pos h1, if_neg h2, ih]
    · rw [if_neg h1, if_neg h1, ih]

/-- C5: header stripping and row acceptance in variant A.  (i) The header
list used for row matching is the raw bolded-header list with exactly its
trailing empty labels removed (the stripped list never ends in an empty
label and the removed suffix is all-empty).  (ii) The produced mappings
are exactly those of the `tr` sub-rows that supply a cell for every
remaining header column, in order — shorter rows contribute nothing at
all.  (iii) Every produced mapping's key set is exactly the stripped
header list: in particular the removed trailing columns are never read
into any mapping. -/
theorem c5_header_strip_row_accept (raw : List String) (rows : List HNode) :
    (∃ pad, raw = stripTrailingEmpty raw ++ pad ∧ (∀ x ∈ pad, x = "") ∧
      (∀ s, (stripTrailingEmpty raw).getLast? = some s → s ≠ "")) ∧
    (moreRows (stripTrailingEmpty raw) rows = rows.filterMap (fun r =>
      if isElemTag r "tr" then
        if (stripTrailingEmpty raw).length ≤ (tdTexts (childrenOf r)).length then
          some (mkRow (stripTrailingEmpty raw) (tdTexts (childrenOf r)))
        else none
      else none)) ∧
    (∀ m ∈ moreRows (stripTrailingEmpty raw) rows, ∀ k,
      (look m k).isSome ↔ k ∈ stripTrailingEmpty raw) := by
  refine ⟨?_, moreRows_filterMap _ rows, ?_⟩
  · refine ⟨(raw.reverse.takeWhile (fun s => s == "")).reverse, ?_, ?_, ?_⟩
    · rw [stripTrailingEmpty, ← List.reverse_append,
        List.takeWhile_append_dropWhile, List.reverse_reverse]
    · intro x hx
      rw [List.mem_reverse] at hx
      simpa using List.mem_takeWhile_imp hx
    · intro s hlast
      rw [stripTrailingEmpty, List.getLast?_reverse] at hlast
      have := head_dropWhile_false (fun s => s == "") raw.reverse s hlast
      simpa using this
  · intro m hm k
    obtain ⟨r, _, hlen, rfl⟩ := moreRows_shape _ rows m hm
    exact look_mkRow_isSome _ _ hlen k

/-- Witness for C5 at a concrete sub-table: headers
`["Shares", "Price", "", ""]` strip to `["Shares", "Price"]`; a two-cell
row is accepted, a one-cell row is dropped; accepted mappings carry
exactly the stripped keys. -/
theorem c5_header_strip_row_accept_witness :
    (∃ pad, ["Shares", "Price", "", ""] =
        stripTrailingEmpty ["Shares", "Price", "", ""] ++ pad ∧
      (∀ x ∈ pad, x = "") ∧
      (∀ s, (stripTrailingEmpty ["Shares", "Price", "", ""]).getLast? = some s → s ≠ "")) ∧
    (moreRows (stripTrailingEmpty ["Shares", "Price", "", ""])
        [.elem "tr" [] [tCell "10", tCell "1.00"], .elem "tr" [] [tCell "20"]] =
      [.elem "tr" [] [tCell "10", tCell "1.00"],
        .elem "tr" [] [tCell "20"]].filterMap (fun r =>
        if isElemTag r "tr" then
          if (stripTrailingEmpty ["Shares", "Price", "", ""]).length ≤
              (tdTexts (childrenOf r)).length then
            some (mkRow (stripTrailingEmpty ["Shares", "Price", "", ""])
              (tdTexts (childrenOf r)))
          else none
        else none)) ∧
    (∀ m ∈ moreRows (stripTrailingEmpty ["Shares", "Price", "", ""])
        [.elem "tr" [] [tCell "10", tCell "1.00"], .elem "tr" [] [tCell "20"]], ∀ k,
      (look m k).isSome ↔ k ∈ stripTrailingEmpty ["Shares", "Price", "", ""]) :=
  c5_header_strip_row_accept ["Shares", "Price", "", ""]
    [.elem "tr" [] [tCell "10", tCell "1.00"], .elem "tr" [] [tCell "20"]]

end Eac2json